import Mathlib

/-!
Verification of the persistent priority job queue (`src/job_queue.py`).

The Python module is shallowly embedded: each relevant Python function or
method becomes a Lean definition operating on explicit state.  Timestamps
(`time.time()` floats) are modelled as `Int`; only their ordering and
subtraction matter to the queue logic.  `progress` percentages are likewise
modelled as `Int` (the code only ever assigns 0, 10, 25 and 100).
-/

namespace PureSound

/-- `JobStatus` enum (`job_queue.py` lines 12-17). -/
inductive JobStatus where
  | pending
  | running
  | completed
  | failed
  | cancelled
deriving DecidableEq, Repr

/-- The string value of a `JobStatus`, as used by `to_dict`. -/
def JobStatus.value : JobStatus → String
  | .pending => "pending"
  | .running => "running"
  | .completed => "completed"
  | .failed => "failed"
  | .cancelled => "cancelled"

/-- `JobStatus(s)` enum construction from a string; `none` models the
`ValueError` Python raises on an unknown value. -/
def JobStatus.ofValue : String → Option JobStatus
  | "pending" => some .pending
  | "running" => some .running
  | "completed" => some .completed
  | "failed" => some .failed
  | "cancelled" => some .cancelled
  | _ => none

/-- `JobPriority` enum (`job_queue.py` lines 19-23). -/
inductive JobPriority where
  | low
  | normal
  | high
  | urgent
deriving DecidableEq, Repr

/-- The integer value of a `JobPriority` (LOW=1 .. URGENT=4). -/
def JobPriority.value : JobPriority → Int
  | .low => 1
  | .normal => 2
  | .high => 3
  | .urgent => 4

/-- `JobPriority(n)` enum construction from an integer; `none` models the
`ValueError` raised on an unknown value. -/
def JobPriority.ofValue : Int → Option JobPriority
  | 1 => some .low
  | 2 => some .normal
  | 3 => some .high
  | 4 => some .urgent
  | _ => none

/-- `CompressionJob` dataclass (`job_queue.py` lines 25-46). -/
structure CompressionJob where
  job_id : String
  input_file : String
  output_file : String
  bitrate : Int
  format : String
  filter_chain : Option String := none
  channels : Int := 1
  preserve_metadata : Bool := true
  priority : JobPriority := .normal
  status : JobStatus := .pending
  progress : Int := 0
  error_message : Option String := none
  start_time : Option Int := none
  end_time : Option Int := none
  input_size : Int := 0
  output_size : Int := 0
  preset_name : Option String := none
  created_at : Int
  updated_at : Int
deriving DecidableEq, Repr

/-- The dictionary produced by `CompressionJob.to_dict` (lines 48-69):
all nineteen keys are always present; `priority` is stored as its integer
value and `status` as its string value. -/
structure JobDict where
  job_id : String
  input_file : String
  output_file : String
  bitrate : Int
  format : String
  filter_chain : Option String
  channels : Int
  preserve_metadata : Bool
  priority : Int
  status : String
  progress : Int
  error_message : Option String
  start_time : Option Int
  end_time : Option Int
  input_size : Int
  output_size : Int
  preset_name : Option String
  created_at : Int
  updated_at : Int
deriving DecidableEq, Repr

/-- `CompressionJob.to_dict` (`job_queue.py` lines 48-69). -/
def to_dict (j : CompressionJob) : JobDict :=
  { job_id := j.job_id
    input_file := j.input_file
    output_file := j.output_file
    bitrate := j.bitrate
    format := j.format
    filter_chain := j.filter_chain
    channels := j.channels
    preserve_metadata := j.preserve_metadata
    priority := j.priority.value
    status := j.status.value
    progress := j.progress
    error_message := j.error_message
    start_time := j.start_time
    end_time := j.end_time
    input_size := j.input_size
    output_size := j.output_size
    preset_name := j.preset_name
    created_at := j.created_at
    updated_at := j.updated_at }

/-- `CompressionJob.from_dict` (`job_queue.py` lines 71-93) applied to a
dictionary in which every key is present (which is what `to_dict` and the
persistence file produce).  `none` models the `ValueError` raised by
`JobPriority(...)` or `JobStatus(...)` on an out-of-range value. -/
def from_dict (d : JobDict) : Option CompressionJob := do
  let p ← JobPriority.ofValue d.priority
  let s ← JobStatus.ofValue d.status
  pure
    { job_id := d.job_id
      input_file := d.input_file
      output_file := d.output_file
      bitrate := d.bitrate
      format := d.format
      filter_chain := d.filter_chain
      channels := d.channels
      preserve_metadata := d.preserve_metadata
      priority := p
      status := s
      progress := d.progress
      error_message := d.error_message
      start_time := d.start_time
      end_time := d.end_time
      input_size := d.input_size
      output_size := d.output_size
      preset_name := d.preset_name
      created_at := d.created_at
      updated_at := d.updated_at }

/-! ### Rate limiter (`JobQueue._check_rate_limit`, lines 116-129) -/

/-- The pruning step of `_check_rate_limit` (line 121): keep only the
timestamps `x` with `now - x < 60`. -/
def pruneWindow (now : Int) (times : List Int) : List Int :=
  times.filter (fun x => now - x < 60)

/-- `JobQueue._check_rate_limit` (lines 116-129).  The state is the
`request_times` list; the result is the returned boolean together with the
new `request_times` (the pruned list is stored even when the call is
denied, since line 121 reassigns `self.request_times` before the check). -/
def check_rate_limit (cap : Nat) (now : Int) (times : List Int) : Bool × List Int :=
  let pruned := pruneWindow now times
  if cap ≤ pruned.length then (false, pruned)
  else (true, pruned ++ [now])

/-- A sequence of `_check_rate_limit` calls at the given times, threading the
`request_times` state and collecting the returned booleans. -/
def runChecks (cap : Nat) : List Int → List Int → List Bool × List Int
  | times, [] => ([], times)
  | times, n :: rest =>
    let r := check_rate_limit cap n times
    let rs := runChecks cap r.2 rest
    (r.1 :: rs.1, rs.2)

/-! ### Priority dispatch queue (`queue.PriorityQueue` of key tuples) -/

/-- An entry of the dispatch queue: the tuple pushed by `add_job` (line 174,
`(-priority.value, created_at, job_id)`) or by `_load_jobs` (line 438,
`(priority.value, created_at, job_id)`). -/
structure QEntry where
  first : Int
  createdAt : Int
  jobId : String
deriving DecidableEq, Repr

/-- The sort key of an entry under Python's lexicographic tuple comparison:
`Int`, then `Int`, then code-point string order. -/
def QEntry.key (e : QEntry) : Lex (Int × Lex (Int × String)) :=
  toLex (e.first, toLex (e.createdAt, e.jobId))

/-- Executable strict tuple comparison between two entries, matching Python
tuple `<`. -/
def entryLtb (a b : QEntry) : Bool :=
  if a.first = b.first then
    if a.createdAt = b.createdAt then a.jobId < b.jobId
    else a.createdAt < b.createdAt
  else a.first < b.first

/-- `minEntry e es` is a least entry of `e :: es` (the first one on ties),
which is what `PriorityQueue.get` returns on a heap holding these entries. -/
def minEntry : QEntry → List QEntry → QEntry
  | e, [] => e
  | e, x :: xs => if entryLtb x e then minEntry x xs else minEntry e xs

/-- Repeatedly popping a minimal entry; the fuel argument makes the recursion
structural, and `fuel = length` drains the queue completely. -/
def drainFuel : Nat → List QEntry → List QEntry
  | 0, _ => []
  | _, [] => []
  | f + 1, e :: es =>
    let m := minEntry e es
    m :: drainFuel f ((e :: es).erase m)

/-- The sequence of entries obtained by calling `PriorityQueue.get` until the
queue is empty: each get returns a minimal remaining entry (Python `heapq`
min-heap semantics on the pushed tuples). -/
def drain (l : List QEntry) : List QEntry := drainFuel l.length l

/-- The entry `add_job` pushes for a job (line 174). -/
def toEntry (j : CompressionJob) : QEntry :=
  ⟨-(j.priority.value), j.created_at, j.job_id⟩

/-- The entry `_load_jobs` pushes for a recovered PENDING record (line 438).
Note the missing minus sign on `priority.value`, in contrast to `add_job`. -/
def loadEntry (jid : String) (j : CompressionJob) : QEntry :=
  ⟨j.priority.value, j.created_at, jid⟩

/-! ### Job table and coordinator state -/

/-- Python dict assignment `tbl[k] = v`: overwrite the entry holding key `k`
if present (dicts hold at most one entry per key), else append, preserving
insertion order. -/
def insertAssoc : List (String × CompressionJob) → String → CompressionJob →
    List (String × CompressionJob)
  | [], k, v => [(k, v)]
  | p :: rest, k, v =>
    if p.1 = k then (k, v) :: rest else p :: insertAssoc rest k v

/-- `self.jobs.get(job_id)`: look up the record stored under a job id. -/
def lookupJob (tbl : List (String × CompressionJob)) (jid : String) :
    Option CompressionJob :=
  (tbl.find? (fun p => p.1 = jid)).map (fun p => p.2)

/-- In-place mutation of the record stored under `jid` (a Python dict holds
at most one entry per key, so updating the first match is dict semantics). -/
def updateJob : List (String × CompressionJob) → String →
    (CompressionJob → CompressionJob) → List (String × CompressionJob)
  | [], _, _ => []
  | p :: rest, jid, f =>
    if p.1 = jid then (p.1, f p.2) :: rest else p :: updateJob rest jid f

/-- The mutable state of a `JobQueue` relevant to the verified claims:
the job table, the dispatch-queue contents, and the rate-limiter state. -/
structure QueueState where
  jobs : List (String × CompressionJob)
  entries : List QEntry
  request_times : List Int
  rate_limit_per_minute : Nat
deriving Repr

/-- `JobQueue.add_job` (lines 164-178): a rate-limit check (which records a
request time), then insertion into the table and the dispatch queue (with
the key tuple of line 174) — no path validation of any kind.  A `none` job
id models the `Exception` raised when the rate limit is hit. -/
def add_job (st : QueueState) (now : Int) (job : CompressionJob) :
    Option String × QueueState :=
  let r := check_rate_limit st.rate_limit_per_minute now st.request_times
  if r.1 then
    (some job.job_id,
     { st with
        request_times := r.2
        jobs := insertAssoc st.jobs job.job_id job
        entries := st.entries ++ [toEntry job] })
  else (none, { st with request_times := r.2 })

/-- `JobQueue.add_job_rate_limited` (lines 131-137): its own rate-limit check
(returning `None` on denial), then delegation to `add_job`, which performs a
second check that records a second request time. -/
def add_job_rate_limited (st : QueueState) (now : Int) (job : CompressionJob) :
    Option String × QueueState :=
  let r := check_rate_limit st.rate_limit_per_minute now st.request_times
  if r.1 then add_job { st with request_times := r.2 } now job
  else (none, { st with request_times := r.2 })

/-- A sequence of `add_job_rate_limited` calls at the given times, counting
how many succeed. -/
def runSubmits (job : CompressionJob) : QueueState → List Int → Nat × QueueState
  | st, [] => (0, st)
  | st, n :: rest =>
    let r := add_job_rate_limited st n job
    let rs := runSubmits job r.2 rest
    ((if r.1.isSome then 1 else 0) + rs.1, rs.2)

/-- `JobQueue.cancel_job` (lines 246-256): `true` and a PENDING→CANCELLED
transition when the id maps to a PENDING record, otherwise `false` with the
state untouched. -/
def cancel_job (st : QueueState) (now : Int) (jid : String) : Bool × QueueState :=
  match lookupJob st.jobs jid with
  | some job =>
    if job.status = .pending then
      (true,
       { st with
          jobs := updateJob st.jobs jid
            (fun j => { j with status := .cancelled, updated_at := now }) })
    else (false, st)
  | none => (false, st)

/-- `JobQueue._load_jobs` (lines 423-443) applied to a parsed persistence
dictionary: each record is deserialized with `from_dict` and stored in the
table, and each PENDING record is pushed on the dispatch queue with the key
tuple `(priority.value, created_at, job_id)` of line 438.  `none` models the
caught exception on an unparsable record (in Python the records already
processed stay loaded; no claim depends on that partial state). -/
def load_jobs (persisted : List (String × JobDict)) :
    Option (List (String × CompressionJob) × List QEntry) :=
  persisted.foldl
    (fun acc p => do
      let s ← acc
      let job ← from_dict p.2
      pure (insertAssoc s.1 p.1 job,
            if job.status = .pending then s.2 ++ [loadEntry p.1 job] else s.2))
    (some ([], []))

/-! ### Worker loop and job processing -/

/-- Outcome of one `compress_audio` call (the executor contract): a normal
`(success, input_size, output_size)` triple or a raised exception. -/
inductive ExecOutcome where
  | success (inputSize outputSize : Int)
  | failure (inputSize outputSize : Int)
  | raised (msg : String)
deriving DecidableEq, Repr

def ExecOutcome.isSuccess : ExecOutcome → Bool
  | .success _ _ => true
  | _ => false

/-- The retry loop of `_process_job` (lines 366-407): `k` is the absolute
attempt index into the executor behaviour `exec`, `r` the number of attempts
remaining out of `max_retries + 1 = 3`.  Returns the success flag, the
mutated job, and the number of executor invocations made.  The `r = 0` case
is the fall-through after the loop (line 406, unreachable when started with
positive fuel). -/
def runAttempts (exec : Nat → ExecOutcome) (now : Int) :
    Nat → Nat → CompressionJob → Bool × CompressionJob × Nat
  | _, 0, job =>
    (false, { job with error_message := some "Compression failed after all retries" }, 0)
  | k, r + 1, job =>
    match exec k with
    | .success i o =>
      (true, { job with progress := 100, input_size := i, output_size := o,
                        updated_at := now }, 1)
    | .failure _ _ =>
      if r = 0 then
        (false, { job with error_message := some "Compression failed after all retries" }, 1)
      else
        let rs := runAttempts exec now (k + 1) r job
        (rs.1, rs.2.1, rs.2.2 + 1)
    | .raised msg =>
      if r = 0 then
        (false, { job with error_message := some ("Compression failed: " ++ msg) }, 1)
      else
        let rs := runAttempts exec now (k + 1) r job
        (rs.1, rs.2.1, rs.2.2 + 1)

/-- The parts of the environment `_process_job` consults: which input paths
exist, which are readable, and which output paths have a directory that
cannot be created (`os.makedirs` raising `OSError`). -/
structure FileSystem where
  existing : List String
  readable : List String
  badOutputDirs : List String

/-- `JobQueue._process_job` (lines 333-412): validation of the input and
output paths at processing time, then the retry loop with `max_retries = 2`
(three attempts). -/
def process_job (fs : FileSystem) (exec : Nat → ExecOutcome) (now : Int)
    (job : CompressionJob) : Bool × CompressionJob × Nat :=
  let job := { job with progress := 10, updated_at := now }
  if job.input_file ∉ fs.existing then
    (false,
     { job with
        error_message := some ("Input file does not exist: " ++ job.input_file) }, 0)
  else if job.input_file ∉ fs.readable then
    (false,
     { job with
        error_message := some ("Input file is not readable: " ++ job.input_file) }, 0)
  else if job.output_file ∈ fs.badOutputDirs then
    (false, { job with error_message := some "Cannot create output directory" }, 0)
  else
    runAttempts exec now 0 3 { job with progress := 25, updated_at := now }

/-- The top of `_worker_loop` (lines 295-310) for one dequeued `job_id`:
an unknown id or a record that is no longer PENDING is silently discarded
(this is how cancelled jobs are skipped without the executor ever running);
a PENDING record is marked RUNNING and handed to `_process_job`. -/
def workerDispatch (tbl : List (String × CompressionJob)) (jid : String) (now : Int) :
    Option CompressionJob × List (String × CompressionJob) :=
  match lookupJob tbl jid with
  | none => (none, tbl)
  | some job =>
    if job.status = .pending then
      (some { job with status := .running, start_time := some now, updated_at := now },
       updateJob tbl jid
         (fun j => { j with status := .running, start_time := some now, updated_at := now }))
    else (none, tbl)

/-- The tail of `_worker_loop` (lines 315-326): set `end_time`, `updated_at`
and the terminal status according to `_process_job`'s boolean result. -/
def finalizeJob (now : Int) (ok : Bool) (j : CompressionJob) : CompressionJob :=
  { j with end_time := some now, updated_at := now,
           status := if ok then .completed else .failed }

/-- One complete worker iteration for one dequeued `job_id`: dispatch,
process, finalize, with the finished record written back into the table. -/
def workerStep (fs : FileSystem) (exec : Nat → ExecOutcome)
    (tbl : List (String × CompressionJob)) (jid : String) (now : Int) :
    List (String × CompressionJob) :=
  match workerDispatch tbl jid now with
  | (none, tbl2) => tbl2
  | (some job2, tbl2) =>
    let r := process_job fs exec now job2
    updateJob tbl2 jid (fun _ => finalizeJob now r.1 r.2.1)

/-- The per-record invariant of claim C8: a record carries an error message
exactly when its status is FAILED. -/
def emInv (j : CompressionJob) : Prop := j.error_message.isSome ↔ j.status = .failed

/-! ### Snapshot queries and object identity

Python records are mutable objects on a heap; the job table maps ids to
references (heap indices), and `list(self.jobs.values())` builds a new list
holding the same references.  The heap is modelled explicitly so that
aliasing between the table and a returned snapshot is observable. -/

/-- A reference to a record object. -/
abbrev Ref := Nat

/-- `JobQueue.get_all_jobs` (lines 263-266): `list(self.jobs.values())`
is a new list whose elements are the same record objects. -/
def get_all_jobs (tbl : List (String × Ref)) : List Ref :=
  tbl.map (fun p => p.2)

/-- `JobQueue.get_pending_jobs` (lines 268-271): the values whose current
status, read through the reference, is PENDING. -/
def get_pending_jobs (heap : List CompressionJob) (tbl : List (String × Ref)) :
    List Ref :=
  (tbl.map (fun p => p.2)).filter
    (fun r => match heap[r]? with
      | some j => j.status = .pending
      | none => false)

/-- `JobQueue.get_running_jobs` (lines 273-276). -/
def get_running_jobs (heap : List CompressionJob) (tbl : List (String × Ref)) :
    List Ref :=
  (tbl.map (fun p => p.2)).filter
    (fun r => match heap[r]? with
      | some j => j.status = .running
      | none => false)

/-- Reading the record stored in the table under `jid` (dereferencing). -/
def derefJob (heap : List CompressionJob) (tbl : List (String × Ref)) (jid : String) :
    Option CompressionJob :=
  match tbl.find? (fun p => p.1 = jid) with
  | some p => heap[p.2]?
  | none => none

/-- Mutating the record object behind a reference (e.g. a worker assigning
to a field of a record obtained from a snapshot list). -/
def writeRef (heap : List CompressionJob) (r : Ref) (j : CompressionJob) :
    List CompressionJob :=
  heap.set r j

/-! ### Shared concrete records for witnesses -/

/-- A concrete LOW-priority pending job. -/
def jobLowP : CompressionJob :=
  { job_id := "a", input_file := "a.wav", output_file := "out/a.mp3",
    bitrate := 128, format := "mp3", priority := .low,
    created_at := 0, updated_at := 0 }

/-- A concrete URGENT-priority pending job with the same timestamp. -/
def jobUrgP : CompressionJob :=
  { job_id := "b", input_file := "b.wav", output_file := "out/b.mp3",
    bitrate := 128, format := "mp3", priority := .urgent,
    created_at := 0, updated_at := 0 }

/-- A concrete NORMAL-priority pending job submitted later. -/
def jobNorP : CompressionJob :=
  { job_id := "c", input_file := "c.wav", output_file := "out/c.mp3",
    bitrate := 128, format := "mp3", priority := .normal,
    created_at := 1, updated_at := 1 }

/-- An empty queue state with the default cap of 60 submissions per minute. -/
def emptyState : QueueState :=
  { jobs := [], entries := [], request_times := [], rate_limit_per_minute := 60 }

/-- `jobLowP` after a cancellation. -/
def jobCanc : CompressionJob := { jobLowP with status := .cancelled }

/-- `jobLowP` after an external mutation of its `progress` field. -/
def jobLowMut : CompressionJob := { jobLowP with progress := 50 }

/-- A filesystem on which `jobLowP`'s paths are fully valid. -/
def fsA : FileSystem := { existing := ["a.wav"], readable := ["a.wav"], badOutputDirs := [] }

/-- A filesystem with no files at all. -/
def fsNone : FileSystem := { existing := [], readable := [], badOutputDirs := [] }

/-- An executor that fails on every attempt. -/
def execFail : Nat → ExecOutcome := fun _ => .failure 0 0

/-- An executor that fails on the first attempt and succeeds on the second. -/
def execOkAt1 : Nat → ExecOutcome := fun k => if k = 1 then .success 1000 500 else .failure 0 0

/-- A filesystem on which `jobLowP`'s input exists and is readable but its
output file's directory cannot be created. -/
def fsBadOut : FileSystem :=
  { existing := ["a.wav"], readable := ["a.wav"], badOutputDirs := ["out/a.mp3"] }

lemma jobPriority_ofValue_value (p : JobPriority) : JobPriority.ofValue p.value = some p := by
  cases p <;> rfl

lemma jobStatus_ofValue_value (s : JobStatus) : JobStatus.ofValue s.value = some s := by
  cases s <;> rfl

/-- **C9**: deserializing the serialized form of any job record reconstructs
the record field for field: `from_dict (to_dict j) = some j`, with `priority`
round-tripped through its integer value and `status` through its string
value. -/
theorem from_dict_to_dict (j : CompressionJob) : from_dict (to_dict j) = some j := by
  simp [from_dict, to_dict, jobPriority_ofValue_value, jobStatus_ofValue_value]

lemma pruneWindow_eq_self (now : Int) (times : List Int)
    (h : ∀ x ∈ times, now - x < 60) : pruneWindow now times = times := by
  unfold pruneWindow
  rw [List.filter_eq_self]
  intro a ha
  simpa using h a ha

/-- Behaviour of a run of checks whose call times and recorded times all lie
in the half-open window `[t, t + 60)`: no timestamp is ever pruned, so the
`i`-th call (0-based, counting from a state of `k` recorded timestamps)
succeeds exactly when `k + i < cap`, and every recorded timestamp stays in
the window. -/
lemma runChecks_window (cap : Nat) (t : Int) :
    ∀ (nows times : List Int),
      (∀ x ∈ times, t ≤ x ∧ x < t + 60) →
      (∀ x ∈ nows, t ≤ x ∧ x < t + 60) →
      (runChecks cap times nows).1 =
        (List.range nows.length).map (fun i => decide (times.length + i < cap))
      ∧ (∀ x ∈ (runChecks cap times nows).2, t ≤ x ∧ x < t + 60) := by
  intro nows
  induction nows with
  | nil =>
    intro times htimes _
    exact ⟨rfl, htimes⟩
  | cons n rest ih =>
    intro times htimes hnows
    have hn : t ≤ n ∧ n < t + 60 := hnows n (by simp)
    have hrest : ∀ x ∈ rest, t ≤ x ∧ x < t + 60 := fun x hx => hnows x (by simp [hx])
    have hprune : pruneWindow n times = times := by
      apply pruneWindow_eq_self
      intro x hx
      have := htimes x hx
      omega
    by_cases hc : cap ≤ times.length
    · have hcheck : check_rate_limit cap n times = (false, times) := by
        simp [check_rate_limit, hprune, hc]
      have := ih times htimes hrest
      constructor
      · show (runChecks cap times (n :: rest)).1 = _
        rw [runChecks, hcheck]
        simp only [List.length_cons, List.range_succ_eq_map, List.map_cons, List.map_map]
        congr 1
        · simp
          omega
        · rw [this.1]
          apply List.map_congr_left
          intro i _
          simp only [Function.comp_apply]
          congr 1
          simp
          omega
      · show ∀ x ∈ (runChecks cap times (n :: rest)).2, _
        rw [runChecks, hcheck]
        exact this.2
    · have hcheck : check_rate_limit cap n times = (true, times ++ [n]) := by
        simp [check_rate_limit, hprune, hc]
      have htimes2 : ∀ x ∈ times ++ [n], t ≤ x ∧ x < t + 60 := by
        intro x hx
        rcases List.mem_append.mp hx with h1 | h1
        · exact htimes x h1
        · simp at h1
          subst h1
          exact hn
      have := ih (times ++ [n]) htimes2 hrest
      constructor
      · show (runChecks cap times (n :: rest)).1 = _
        rw [runChecks, hcheck]
        simp only [List.length_cons, List.range_succ_eq_map, List.map_cons, List.map_map]
        congr 1
        · simp
          omega
        · rw [this.1]
          apply List.map_congr_left
          intro i _
          simp only [Function.comp_apply, List.length_append, List.length_cons]
          congr 1
          simp
          omega
      · show ∀ x ∈ (runChecks cap times (n :: rest)).2, _
        rw [runChecks, hcheck]
        exact this.2

/-- **C3**: one rate-limit check first prunes every timestamp older than 60
seconds, then appends the call time and returns `true` when the remaining
count is below the cap, and otherwise returns `false` appending nothing;
consequently of `cap + 1` checks within one 60-second window the first `cap`
succeed and the `(cap+1)`-th returns `false`, and once the window has
elapsed a further check returns `true` again. -/
theorem rate_limit_cap_and_recovery (cap : Nat) (t : Int) (nows : List Int)
    (hcap : 0 < cap) (hlen : nows.length = cap + 1)
    (hwin : ∀ x ∈ nows, t ≤ x ∧ x < t + 60) :
    (∀ (now : Int) (times : List Int),
      check_rate_limit cap now times =
        if (pruneWindow now times).length < cap
        then (true, pruneWindow now times ++ [now])
        else (false, pruneWindow now times))
    ∧ (runChecks cap [] nows).1 = List.replicate cap true ++ [false]
    ∧ (check_rate_limit cap (t + 120) (runChecks cap [] nows).2).1 = true := by
  have hmain := runChecks_window cap t nows [] (by simp) hwin
  refine ⟨?_, ?_, ?_⟩
  · intro now times
    by_cases hc : (pruneWindow now times).length < cap
    · simp [check_rate_limit, hc, Nat.not_le.mpr hc]
    · simp [check_rate_limit, hc, Nat.le_of_not_lt (by exact hc)]
  · rw [hmain.1, hlen]
    rw [List.range_succ, List.map_append]
    congr 1
    · rw [List.eq_replicate_iff]
      refine ⟨by simp, ?_⟩
      intro b hb
      rcases List.mem_map.mp hb with ⟨i, hi, rfl⟩
      simp at hi ⊢
      omega
    · simp
  · have hempty : pruneWindow (t + 120) (runChecks cap [] nows).2 = [] := by
      unfold pruneWindow
      rw [List.filter_eq_nil_iff]
      intro a ha
      have := hmain.2 a ha
      simp
      omega
    rw [check_rate_limit]
    rw [hempty]
    simp only [List.length_nil]
    rw [if_neg (by omega)]

/-- Witness for `rate_limit_cap_and_recovery` at `cap = 2`, `t = 0`,
calls at times `[0, 10, 59]`. -/
theorem rate_limit_cap_and_recovery_witness :
    (runChecks 2 [] [0, 10, 59]).1 = List.replicate 2 true ++ [false]
    ∧ (check_rate_limit 2 (0 + 120) (runChecks 2 [] [0, 10, 59]).2).1 = true :=
  ⟨(rate_limit_cap_and_recovery 2 0 [0, 10, 59] (by decide) (by decide) (by decide)).2.1,
   (rate_limit_cap_and_recovery 2 0 [0, 10, 59] (by decide) (by decide) (by decide)).2.2⟩

/-! ### Dispatch-queue ordering -/

lemma entryLtb_iff (a b : QEntry) : entryLtb a b = true ↔ a.key < b.key := by
  unfold entryLtb QEntry.key
  rw [Prod.Lex.lt_iff]
  by_cases h1 : a.first = b.first
  · by_cases h2 : a.createdAt = b.createdAt
    · simp [h1, h2, Prod.Lex.lt_iff]
    · simp [h1, h2, Prod.Lex.lt_iff]
  · simp [h1]

lemma minEntry_mem (e : QEntry) (es : List QEntry) : minEntry e es ∈ e :: es := by
  induction es generalizing e with
  | nil => simp [minEntry]
  | cons x xs ih =>
    rw [minEntry]
    by_cases h : entryLtb x e = true
    · simp only [h, if_true]
      rcases List.mem_cons.mp (ih x) with h1 | h1
      · exact List.mem_cons.mpr (Or.inr (List.mem_cons.mpr (Or.inl h1)))
      · exact List.mem_cons.mpr (Or.inr (List.mem_cons.mpr (Or.inr h1)))
    · simp only [h, if_false]
      rcases List.mem_cons.mp (ih e) with h1 | h1
      · exact List.mem_cons.mpr (Or.inl h1)
      · exact List.mem_cons.mpr (Or.inr (List.mem_cons.mpr (Or.inr h1)))

lemma minEntry_le (e : QEntry) (es : List QEntry) :
    ∀ x ∈ e :: es, (minEntry e es).key ≤ x.key := by
  induction es generalizing e with
  | nil =>
    intro x hx
    simp at hx
    subst hx
    simp [minEntry]
  | cons y ys ih =>
    intro x hx
    rw [minEntry]
    by_cases h : entryLtb y e = true
    · have hlt : y.key < e.key := (entryLtb_iff y e).mp h
      simp only [h, if_true]
      rcases List.mem_cons.mp hx with heq | hx2
      · rw [heq]
        exact le_trans (ih y y (List.mem_cons_self y ys)) (le_of_lt hlt)
      · exact ih y x hx2
    · have hle : e.key ≤ y.key := by
        have := mt (entryLtb_iff y e).mpr h
        exact le_of_not_lt this
      simp only [h, if_false]
      rcases List.mem_cons.mp hx with heq | hx2
      · rw [heq]
        exact ih e e (List.mem_cons_self e ys)
      · rcases List.mem_cons.mp hx2 with heq2 | hx3
        · rw [heq2]
          exact le_trans (ih e e (List.mem_cons_self e ys)) hle
        · exact ih e x (List.mem_cons.mpr (Or.inr hx3))

lemma drainFuel_perm : ∀ (f : Nat) (l : List QEntry), l.length = f →
    (drainFuel f l).Perm l := by
  intro f
  induction f with
  | zero =>
    intro l hl
    rw [List.length_eq_zero] at hl
    subst hl
    simp [drainFuel]
  | succ f ih =>
    intro l hl
    match l with
    | [] => simp [drainFuel]
    | e :: es =>
      rw [drainFuel]
      have hm : minEntry e es ∈ e :: es := minEntry_mem e es
      have hlen : ((e :: es).erase (minEntry e es)).length = f := by
        rw [List.length_erase_of_mem hm]
        simp at hl
        simp [hl]
      exact ((ih _ hlen).cons _).trans (List.perm_cons_erase hm).symm

lemma drainFuel_sorted : ∀ (f : Nat) (l : List QEntry), l.length = f →
    (drainFuel f l).Pairwise (fun a b => a.key ≤ b.key) := by
  intro f
  induction f with
  | zero =>
    intro l _
    simp [drainFuel]
  | succ f ih =>
    intro l hl
    match l with
    | [] => simp [drainFuel]
    | e :: es =>
      rw [drainFuel]
      have hm : minEntry e es ∈ e :: es := minEntry_mem e es
      have hlen : ((e :: es).erase (minEntry e es)).length = f := by
        rw [List.length_erase_of_mem hm]
        simp at hl
        simp [hl]
      rw [List.pairwise_cons]
      refine ⟨?_, ih _ hlen⟩
      intro b hb
      have hb2 : b ∈ (e :: es).erase (minEntry e es) :=
        (drainFuel_perm f _ hlen).mem_iff.mp hb
      exact minEntry_le e es b (List.mem_of_mem_erase hb2)

lemma drain_perm (l : List QEntry) : (drain l).Perm l := drainFuel_perm l.length l rfl

lemma drain_sorted (l : List QEntry) :
    (drain l).Pairwise (fun a b => a.key ≤ b.key) := drainFuel_sorted l.length l rfl

/-- In a drained queue, an entry with a strictly smaller key appears strictly
earlier. -/
lemma drain_indexOf_lt (l : List QEntry) (a b : QEntry) (ha : a ∈ l) (hb : b ∈ l)
    (hlt : a.key < b.key) : (drain l).indexOf a < (drain l).indexOf b := by
  have had : a ∈ drain l := (drain_perm l).mem_iff.mpr ha
  have hbd : b ∈ drain l := (drain_perm l).mem_iff.mpr hb
  have hia : (drain l).indexOf a < (drain l).length := List.indexOf_lt_length.mpr had
  have hib : (drain l).indexOf b < (drain l).length := List.indexOf_lt_length.mpr hbd
  by_contra hcon
  push_neg at hcon
  rcases lt_or_eq_of_le hcon with hlt2 | heq
  · have hpair := List.pairwise_iff_getElem.mp (drain_sorted l) _ _ hib hia hlt2
    rw [List.getElem_indexOf hib, List.getElem_indexOf hia] at hpair
    exact absurd hlt (not_lt.mpr hpair)
  · have hba : b = a := (List.indexOf_inj hbd had).mp heq
    subst hba
    exact absurd hlt (lt_irrefl _)

/-- The three tie-break clauses of the claim each force a strictly smaller
`add_job` sort key. -/
lemma toEntry_key_lt (a b : CompressionJob)
    (h : b.priority.value < a.priority.value
       ∨ (a.priority.value = b.priority.value ∧ a.created_at < b.created_at)
       ∨ (a.priority.value = b.priority.value ∧ a.created_at = b.created_at
           ∧ a.job_id < b.job_id)) :
    (toEntry a).key < (toEntry b).key := by
  unfold toEntry QEntry.key
  rw [Prod.Lex.lt_iff]
  rcases h with h | ⟨h1, h2⟩ | ⟨h1, h2, h3⟩
  · left
    simpa using h
  · right
    refine ⟨by rw [h1], ?_⟩
    rw [Prod.Lex.lt_iff]
    left
    exact h2
  · right
    refine ⟨by rw [h1], ?_⟩
    rw [Prod.Lex.lt_iff]
    right
    exact ⟨h2, h3⟩

/-- **C1**: `add_job` pushes the entry `(-priority.value, created_at, job_id)`
onto the dispatch queue, and draining the queue dequeues entries in ascending
order of that key: a job with higher numeric priority is dequeued before any
lower-priority job; among equal priorities the earlier `created_at` is
dequeued first; among equal priorities and timestamps the lexicographically
smaller `job_id` is dequeued first. -/
theorem dequeue_order (st : QueueState) (now : Int) (c : CompressionJob)
    (jobs : List CompressionJob) (a b : CompressionJob)
    (ha : a ∈ jobs) (hb : b ∈ jobs)
    (h : b.priority.value < a.priority.value
       ∨ (a.priority.value = b.priority.value ∧ a.created_at < b.created_at)
       ∨ (a.priority.value = b.priority.value ∧ a.created_at = b.created_at
           ∧ a.job_id < b.job_id)) :
    ((add_job st now c).1.isSome →
      (add_job st now c).2.entries = st.entries ++ [toEntry c])
    ∧ (drain (jobs.map toEntry)).indexOf (toEntry a)
        < (drain (jobs.map toEntry)).indexOf (toEntry b) := by
  constructor
  · intro hsome
    unfold add_job at hsome ⊢
    by_cases hr : (check_rate_limit st.rate_limit_per_minute now st.request_times).1
    · simp [hr]
    · simp [hr] at hsome
  · exact drain_indexOf_lt _ _ _ (List.mem_map_of_mem _ ha) (List.mem_map_of_mem _ hb)
      (toEntry_key_lt a b h)

/-- Witness for `dequeue_order`: with the LOW/URGENT/NORMAL jobs of the
spec's scenario P2, the URGENT job is dequeued before the LOW job. -/
theorem dequeue_order_witness :
    ((add_job emptyState 0 jobNorP).1.isSome →
      (add_job emptyState 0 jobNorP).2.entries = emptyState.entries ++ [toEntry jobNorP])
    ∧ (drain ([jobLowP, jobUrgP, jobNorP].map toEntry)).indexOf (toEntry jobUrgP)
        < (drain ([jobLowP, jobUrgP, jobNorP].map toEntry)).indexOf (toEntry jobLowP) :=
  dequeue_order emptyState 0 jobNorP [jobLowP, jobUrgP, jobNorP] jobUrgP jobLowP
    (by simp) (by simp) (Or.inl (by decide))

/-- **C2** (code bug): for a persisted table holding the PENDING jobs `"a"`
(LOW priority) and `"b"` (URGENT priority) with equal `created_at`, loading
re-inserts exactly the PENDING records, but with the key
`(priority.value, created_at, job_id)` — line 438 omits the minus sign that
`add_job` applies at line 174 — so the recovered queue dequeues `"a"` before
`"b"`, while before the restart `"b"` was dequeued before `"a"`: the
scheduling order is reversed, not restored. -/
theorem load_jobs_priority_sign_bug :
    load_jobs [("a", to_dict jobLowP), ("b", to_dict jobUrgP)]
      = some ([("a", jobLowP), ("b", jobUrgP)],
              [loadEntry "a" jobLowP, loadEntry "b" jobUrgP])
    ∧ (drain [toEntry jobLowP, toEntry jobUrgP]).map QEntry.jobId = ["b", "a"]
    ∧ (drain [loadEntry "a" jobLowP, loadEntry "b" jobUrgP]).map QEntry.jobId = ["a", "b"]
    ∧ loadEntry "a" jobLowP ≠ toEntry jobLowP := by
  refine ⟨by decide, by decide, by decide, by decide⟩

/-! ### Cancellation -/

lemma lookupJob_cons (q : String × CompressionJob) (rest : List (String × CompressionJob))
    (jid : String) :
    lookupJob (q :: rest) jid = if q.1 = jid then some q.2 else lookupJob rest jid := by
  by_cases h : q.1 = jid <;> simp [lookupJob, List.find?_cons, h]

lemma lookupJob_updateJob (tbl : List (String × CompressionJob)) (jid : String)
    (f : CompressionJob → CompressionJob) :
    lookupJob (updateJob tbl jid f) jid = (lookupJob tbl jid).map f := by
  induction tbl with
  | nil => simp [lookupJob, updateJob]
  | cons p rest ih =>
    by_cases h : p.1 = jid
    · rw [updateJob, if_pos h, lookupJob_cons, lookupJob_cons, if_pos h, if_pos h]
      simp
    · rw [updateJob, if_neg h, lookupJob_cons, lookupJob_cons, if_neg h, if_neg h]
      exact ih

/-- **C4**: `cancel_job` returns `true` exactly when the table maps the id to
a PENDING record, and then that record becomes CANCELLED with `updated_at`
refreshed; for an unknown id or a non-PENDING record it returns `false` and
leaves the whole state unchanged; and a record that is CANCELLED when its
queue entry is dequeued is silently discarded by the worker — the record is
not dispatched and the executor is never invoked for it. -/
theorem cancel_job_spec (st : QueueState) (now : Int) (jid : String)
    (tbl : List (String × CompressionJob)) (j : CompressionJob)
    (hlook : lookupJob tbl jid = some j) (hcanc : j.status = .cancelled) :
    ((cancel_job st now jid).1 = true ↔
      ∃ job, lookupJob st.jobs jid = some job ∧ job.status = .pending)
    ∧ (∀ job, lookupJob st.jobs jid = some job → job.status = .pending →
        lookupJob (cancel_job st now jid).2.jobs jid =
          some { job with status := .cancelled, updated_at := now })
    ∧ ((cancel_job st now jid).1 = false → (cancel_job st now jid).2 = st)
    ∧ workerDispatch tbl jid now = (none, tbl) := by
  refine ⟨?_, ?_, ?_, ?_⟩
  · rcases hl : lookupJob st.jobs jid with _ | job
    · have e : cancel_job st now jid = (false, st) := by
        unfold cancel_job
        rw [hl]
      rw [e]
      constructor
      · intro h
        exact Bool.noConfusion h
      · rintro ⟨job2, hj2, hp2⟩
        exact Option.noConfusion hj2
    · by_cases hp : job.status = .pending
      · have e : (cancel_job st now jid).1 = true := by
          unfold cancel_job
          rw [hl]
          simp [hp]
        rw [e]
        constructor
        · intro _
          exact ⟨job, rfl, hp⟩
        · intro _
          rfl
      · have e : cancel_job st now jid = (false, st) := by
          unfold cancel_job
          rw [hl]
          simp [hp]
        rw [e]
        constructor
        · intro h
          exact Bool.noConfusion h
        · rintro ⟨job2, hj2, hp2⟩
          have hje := Option.some.inj hj2
          subst hje
          exact absurd hp2 hp
  · intro job hl hp
    have e : (cancel_job st now jid).2.jobs =
        updateJob st.jobs jid (fun j => { j with status := .cancelled, updated_at := now }) := by
      unfold cancel_job
      rw [hl]
      simp [hp]
    rw [e, lookupJob_updateJob, hl]
    rfl
  · rcases hl : lookupJob st.jobs jid with _ | job
    · have e : cancel_job st now jid = (false, st) := by
        unfold cancel_job
        rw [hl]
      rw [e]
      intro _
      rfl
    · by_cases hp : job.status = .pending
      · have e : (cancel_job st now jid).1 = true := by
          unfold cancel_job
          rw [hl]
          simp [hp]
        rw [e]
        intro h
        exact absurd h (by simp)
      · have e : cancel_job st now jid = (false, st) := by
          unfold cancel_job
          rw [hl]
          simp [hp]
        rw [e]
        intro _
        rfl
  · unfold workerDispatch
    rw [hlook]
    simp [hcanc]

/-- Witness for `cancel_job_spec`: a state holding one PENDING job under
`"a"`, and a table where `"a"` maps to a CANCELLED record. -/
theorem cancel_job_spec_witness :
    ((cancel_job { emptyState with jobs := [("a", jobLowP)] } 5 "a").1 = true ↔
      ∃ job, lookupJob [("a", jobLowP)] "a" = some job ∧ job.status = .pending)
    ∧ (∀ job, lookupJob [("a", jobLowP)] "a" = some job → job.status = .pending →
        lookupJob (cancel_job { emptyState with jobs := [("a", jobLowP)] } 5 "a").2.jobs "a" =
          some { job with status := .cancelled, updated_at := 5 })
    ∧ ((cancel_job { emptyState with jobs := [("a", jobLowP)] } 5 "a").1 = false →
        (cancel_job { emptyState with jobs := [("a", jobLowP)] } 5 "a").2 =
          { emptyState with jobs := [("a", jobLowP)] })
    ∧ workerDispatch [("a", jobCanc)] "a" 5 = (none, [("a", jobCanc)]) :=
  cancel_job_spec { emptyState with jobs := [("a", jobLowP)] } 5 "a"
    [("a", jobCanc)] jobCanc (by decide) (by decide)

/-! ### Submission-time versus processing-time validation -/

lemma lookupJob_insertAssoc (tbl : List (String × CompressionJob)) (k : String)
    (v : CompressionJob) : lookupJob (insertAssoc tbl k v) k = some v := by
  induction tbl with
  | nil => simp [insertAssoc, lookupJob, List.find?_cons]
  | cons p rest ih =>
    by_cases h : p.1 = k
    · rw [insertAssoc, if_pos h, lookupJob_cons]
      simp
    · rw [insertAssoc, if_neg h, lookupJob_cons, if_neg h]
      exact ih

/-- **C6** counterexample: submission performs no path validation — on a
filesystem with no files at all, `add_job` on a job whose input file does not
exist succeeds and the job enters the job table. -/
theorem add_job_no_validation_counterexample :
    jobLowP.input_file ∉ fsNone.existing
    ∧ (add_job emptyState 0 jobLowP).1 = some "a"
    ∧ lookupJob (add_job emptyState 0 jobLowP).2.jobs "a" = some jobLowP :=
  ⟨by decide, by decide, by decide⟩

/-- **C6** amended: path validation happens when a worker processes the job,
not at submission: `add_job` never consults the filesystem and (absent rate
limiting) the job enters the table, while `_process_job` on a job whose input
file is missing or unreadable, or whose output directory cannot be created,
returns failure without invoking the executor, sets an error message, and
the worker then marks the job FAILED. -/
theorem validation_at_processing (st : QueueState) (now : Int) (job : CompressionJob)
    (fs : FileSystem) (exec : Nat → ExecOutcome)
    (hbad : job.input_file ∉ fs.existing ∨ job.input_file ∉ fs.readable
          ∨ job.output_file ∈ fs.badOutputDirs) :
    ((add_job st now job).1.isSome →
      lookupJob (add_job st now job).2.jobs job.job_id = some job)
    ∧ (process_job fs exec now job).1 = false
    ∧ (process_job fs exec now job).2.2 = 0
    ∧ (process_job fs exec now job).2.1.error_message.isSome
    ∧ (finalizeJob now (process_job fs exec now job).1
        (process_job fs exec now job).2.1).status = .failed := by
  have hadd : (add_job st now job).1.isSome →
      lookupJob (add_job st now job).2.jobs job.job_id = some job := by
    intro hsome
    unfold add_job at hsome ⊢
    by_cases hr : (check_rate_limit st.rate_limit_per_minute now st.request_times).1
    · simp only [hr, if_true]
      exact lookupJob_insertAssoc st.jobs job.job_id job
    · simp [hr] at hsome
  by_cases h1 : job.input_file ∈ fs.existing
  · by_cases h2 : job.input_file ∈ fs.readable
    · by_cases h3 : job.output_file ∈ fs.badOutputDirs
      · have hP : process_job fs exec now job =
            (false,
             ({ job with
                 progress := 10
                 updated_at := now
                 error_message := some "Cannot create output directory" }
               : CompressionJob),
             0) := by
          unfold process_job
          rw [if_neg (by simp [h1]), if_neg (by simp [h2]), if_pos (by simpa using h3)]
        rw [hP]
        exact ⟨hadd, rfl, rfl, rfl, rfl⟩
      · exfalso
        rcases hbad with hb | hb | hb
        · exact hb h1
        · exact hb h2
        · exact h3 hb
    · have hP : process_job fs exec now job =
          (false,
           ({ job with
               progress := 10
               updated_at := now
               error_message := some ("Input file is not readable: " ++ job.input_file) }
             : CompressionJob),
           0) := by
        unfold process_job
        rw [if_neg (by simp [h1]), if_pos (by simpa using h2)]
      rw [hP]
      exact ⟨hadd, rfl, rfl, rfl, rfl⟩
  · have hP : process_job fs exec now job =
        (false,
         ({ job with
             progress := 10
             updated_at := now
             error_message := some ("Input file does not exist: " ++ job.input_file) }
           : CompressionJob),
         0) := by
      unfold process_job
      rw [if_pos (by simpa using h1)]
    rw [hP]
    exact ⟨hadd, rfl, rfl, rfl, rfl⟩

/-- Witness for `validation_at_processing`: the LOW job on an empty
filesystem with an always-failing executor. -/
theorem validation_at_processing_witness :
    ((add_job emptyState 0 jobLowP).1.isSome →
      lookupJob (add_job emptyState 0 jobLowP).2.jobs jobLowP.job_id = some jobLowP)
    ∧ (process_job fsNone execFail 0 jobLowP).1 = false
    ∧ (process_job fsNone execFail 0 jobLowP).2.2 = 0
    ∧ (process_job fsNone execFail 0 jobLowP).2.1.error_message.isSome
    ∧ (finalizeJob 0 (process_job fsNone execFail 0 jobLowP).1
        (process_job fsNone execFail 0 jobLowP).2.1).status = .failed :=
  validation_at_processing emptyState 0 jobLowP fsNone execFail (Or.inl (by decide))

/-! ### Retry policy -/

lemma runAttempts_all_fail (exec : Nat → ExecOutcome) (now : Int)
    (hfail : ∀ k, (exec k).isSuccess = false) :
    ∀ (r k : Nat) (job : CompressionJob), 0 < r →
      (runAttempts exec now k r job).1 = false
      ∧ (runAttempts exec now k r job).2.2 = r
      ∧ (runAttempts exec now k r job).2.1.error_message.isSome := by
  intro r
  induction r with
  | zero =>
    intro k job h
    exact absurd h (lt_irrefl 0)
  | succ r ih =>
    intro k job _
    rcases hx : exec k with ⟨i, o⟩ | ⟨i, o⟩ | ⟨msg⟩
    · exfalso
      have := hfail k
      rw [hx] at this
      exact Bool.noConfusion this
    · by_cases hr : r = 0
      · subst hr
        simp [runAttempts, hx]
      · have ihr := ih (k + 1) job (Nat.pos_of_ne_zero hr)
        simp only [runAttempts, hx, if_neg hr]
        exact ⟨ihr.1, by rw [ihr.2.1], ihr.2.2⟩
    · by_cases hr : r = 0
      · subst hr
        simp [runAttempts, hx]
      · have ihr := ih (k + 1) job (Nat.pos_of_ne_zero hr)
        simp only [runAttempts, hx, if_neg hr]
        exact ⟨ihr.1, by rw [ihr.2.1], ihr.2.2⟩

lemma runAttempts_first_success (exec : Nat → ExecOutcome) (now : Int) :
    ∀ (j k r : Nat) (job : CompressionJob),
      (exec (k + j)).isSuccess = true →
      (∀ i, i < j → (exec (k + i)).isSuccess = false) →
      j < r →
      (runAttempts exec now k r job).1 = true
      ∧ (runAttempts exec now k r job).2.2 = j + 1
      ∧ (runAttempts exec now k r job).2.1.error_message = job.error_message := by
  intro j
  induction j with
  | zero =>
    intro k r job hs _ hr
    match r, hr with
    | r + 1, _ =>
      rw [Nat.add_zero] at hs
      rcases hx : exec k with ⟨i, o⟩ | ⟨i, o⟩ | ⟨msg⟩
      · simp [runAttempts, hx]
      · rw [hx] at hs
        exact absurd hs (by simp [ExecOutcome.isSuccess])
      · rw [hx] at hs
        exact absurd hs (by simp [ExecOutcome.isSuccess])
  | succ j ih =>
    intro k r job hs hf hr
    match r, hr with
    | r + 1, hr =>
      have h0 : (exec k).isSuccess = false := by simpa using hf 0 (Nat.succ_pos j)
      have hrne : r ≠ 0 := by omega
      have es : k + 1 + j = k + (j + 1) := by omega
      have hs2 : (exec (k + 1 + j)).isSuccess = true := by rw [es]; exact hs
      have hf2 : ∀ i, i < j → (exec (k + 1 + i)).isSuccess = false := by
        intro i hi
        have ei : k + 1 + i = k + (i + 1) := by omega
        rw [ei]
        exact hf (i + 1) (by omega)
      have ihr := ih (k + 1) r job hs2 hf2 (by omega)
      rcases hx : exec k with ⟨i, o⟩ | ⟨i, o⟩ | ⟨msg⟩
      · rw [hx] at h0
        exact absurd h0 (by simp [ExecOutcome.isSuccess])
      · simp only [runAttempts, hx, if_neg hrne]
        exact ⟨ihr.1, by rw [ihr.2.1], ihr.2.2⟩
      · simp only [runAttempts, hx, if_neg hrne]
        exact ⟨ihr.1, by rw [ihr.2.1], ihr.2.2⟩

/-- With valid paths, `_process_job` is exactly the retry loop started with
3 attempts of budget. -/
lemma process_job_valid (fs : FileSystem) (exec : Nat → ExecOutcome) (now : Int)
    (job : CompressionJob)
    (h1 : job.input_file ∈ fs.existing) (h2 : job.input_file ∈ fs.readable)
    (h3 : job.output_file ∉ fs.badOutputDirs) :
    process_job fs exec now job =
      runAttempts exec now 0 3 { job with progress := 25, updated_at := now } := by
  unfold process_job
  rw [if_neg (by simp [h1]), if_neg (by simp [h2]), if_neg (by simpa using h3)]

/-- **C5** counterexample: the claim as stated is false for a job whose input
path exists and is readable but whose output file's directory cannot be
created: `_process_job` fails that job in its output-directory validation
(lines 353-361), so although the executor (`execFail`, which fails on every
attempt by definition) never succeeds, it is invoked 0 times rather than
`max_retries + 1 = 3`, and the job is still marked FAILED. -/
theorem retry_policy_output_dir_counterexample :
    jobLowP.input_file ∈ fsBadOut.existing
    ∧ jobLowP.input_file ∈ fsBadOut.readable
    ∧ (process_job fsBadOut execFail 7 jobLowP).2.2 = 0
    ∧ (process_job fsBadOut execFail 7 jobLowP).2.2 ≠ 3
    ∧ (process_job fsBadOut execFail 7 jobLowP).1 = false
    ∧ (finalizeJob 7 (process_job fsBadOut execFail 7 jobLowP).1
        (process_job fsBadOut execFail 7 jobLowP).2.1).status = .failed :=
  ⟨by decide, by decide, by decide, by decide, by decide, by decide⟩

/-- **C5** amended: for a job whose input path exists and is readable AND
whose output file's directory can be created (so that `_process_job`'s
validation passes and the retry loop is reached), if the executor fails
(unsuccessful result or raised exception) on every attempt, processing
invokes it exactly `max_retries + 1 = 3` times and the worker then marks the
job FAILED with a non-null error message; if attempt `j < 3` is the first
success, exactly `j + 1` invocations are made and the worker marks the job
COMPLETED. -/
theorem retry_policy (fs : FileSystem) (exec : Nat → ExecOutcome) (now : Int)
    (job : CompressionJob)
    (h1 : job.input_file ∈ fs.existing) (h2 : job.input_file ∈ fs.readable)
    (h3 : job.output_file ∉ fs.badOutputDirs) :
    ((∀ k, (exec k).isSuccess = false) →
      (process_job fs exec now job).2.2 = 3
      ∧ (process_job fs exec now job).1 = false
      ∧ (process_job fs exec now job).2.1.error_message.isSome
      ∧ (finalizeJob now (process_job fs exec now job).1
          (process_job fs exec now job).2.1).status = .failed)
    ∧ (∀ j, j < 3 → (exec j).isSuccess = true →
        (∀ i, i < j → (exec i).isSuccess = false) →
      (process_job fs exec now job).2.2 = j + 1
      ∧ (process_job fs exec now job).1 = true
      ∧ (finalizeJob now (process_job fs exec now job).1
          (process_job fs exec now job).2.1).status = .completed) := by
  rw [process_job_valid fs exec now job h1 h2 h3]
  constructor
  · intro hfail
    have h := runAttempts_all_fail exec now hfail 3 0
      { job with progress := 25, updated_at := now } (by omega)
    exact ⟨h.2.1, h.1, h.2.2, by rw [h.1]; rfl⟩
  · intro j hj hs hf
    have h := runAttempts_first_success exec now j 0 3
      { job with progress := 25, updated_at := now } (by simpa using hs)
      (by simpa using hf) hj
    exact ⟨h.2.1, h.1, by rw [h.1]; rfl⟩

/-- Witness for `retry_policy`: the always-failing executor makes 3 attempts
and the job is FAILED; the executor succeeding on attempt index 1 makes 2
attempts and the job is COMPLETED. -/
theorem retry_policy_witness :
    ((process_job fsA execFail 7 jobLowP).2.2 = 3
      ∧ (process_job fsA execFail 7 jobLowP).1 = false
      ∧ (process_job fsA execFail 7 jobLowP).2.1.error_message.isSome
      ∧ (finalizeJob 7 (process_job fsA execFail 7 jobLowP).1
          (process_job fsA execFail 7 jobLowP).2.1).status = .failed)
    ∧ ((process_job fsA execOkAt1 7 jobLowP).2.2 = 2
      ∧ (process_job fsA execOkAt1 7 jobLowP).1 = true
      ∧ (finalizeJob 7 (process_job fsA execOkAt1 7 jobLowP).1
          (process_job fsA execOkAt1 7 jobLowP).2.1).status = .completed) :=
  ⟨(retry_policy fsA execFail 7 jobLowP (by decide) (by decide) (by decide)).1
      (fun _ => rfl),
   (retry_policy fsA execOkAt1 7 jobLowP (by decide) (by decide) (by decide)).2
      1 (by omega) (by decide)
      (fun i hi => by
        have h0 : i = 0 := Nat.lt_one_iff.mp hi
        subst h0
        decide)⟩

/-! ### The error-message/status invariant -/

lemma runAttempts_error (exec : Nat → ExecOutcome) (now : Int) :
    ∀ (r k : Nat) (job : CompressionJob),
      ((runAttempts exec now k r job).1 = true →
        (runAttempts exec now k r job).2.1.error_message = job.error_message)
      ∧ ((runAttempts exec now k r job).1 = false →
        (runAttempts exec now k r job).2.1.error_message.isSome) := by
  intro r
  induction r with
  | zero =>
    intro k job
    constructor
    · intro h
      exact absurd h (by simp [runAttempts])
    · intro _
      simp [runAttempts]
  | succ r ih =>
    intro k job
    rcases hx : exec k with ⟨i, o⟩ | ⟨i, o⟩ | ⟨msg⟩
    · constructor
      · intro _
        simp [runAttempts, hx]
      · intro h
        exact absurd h (by simp [runAttempts, hx])
    · by_cases hr : r = 0
      · subst hr
        constructor
        · intro h
          exact absurd h (by simp [runAttempts, hx])
        · intro _
          simp [runAttempts, hx]
      · simp only [runAttempts, hx, if_neg hr]
        exact ih (k + 1) job
    · by_cases hr : r = 0
      · subst hr
        constructor
        · intro h
          exact absurd h (by simp [runAttempts, hx])
        · intro _
          simp [runAttempts, hx]
      · simp only [runAttempts, hx, if_neg hr]
        exact ih (k + 1) job

lemma process_job_error (fs : FileSystem) (exec : Nat → ExecOutcome) (now : Int)
    (job : CompressionJob) :
    ((process_job fs exec now job).1 = true →
      (process_job fs exec now job).2.1.error_message = job.error_message)
    ∧ ((process_job fs exec now job).1 = false →
      (process_job fs exec now job).2.1.error_message.isSome) := by
  by_cases h1 : job.input_file ∈ fs.existing
  · by_cases h2 : job.input_file ∈ fs.readable
    · by_cases h3 : job.output_file ∈ fs.badOutputDirs
      · constructor
        · intro h
          exfalso
          unfold process_job at h
          rw [if_neg (by simp [h1]), if_neg (by simp [h2]),
            if_pos (by simpa using h3)] at h
          exact Bool.noConfusion h
        · intro _
          unfold process_job
          rw [if_neg (by simp [h1]), if_neg (by simp [h2]), if_pos (by simpa using h3)]
          rfl
      · rw [process_job_valid fs exec now job h1 h2 h3]
        exact runAttempts_error exec now 3 0 _
    · constructor
      · intro h
        exfalso
        unfold process_job at h
        rw [if_neg (by simp [h1]), if_pos (by simpa using h2)] at h
        exact Bool.noConfusion h
      · intro _
        unfold process_job
        rw [if_neg (by simp [h1]), if_pos (by simpa using h2)]
        rfl
  · constructor
    · intro h
      exfalso
      unfold process_job at h
      rw [if_pos (by simpa using h1)] at h
      exact Bool.noConfusion h
    · intro _
      unfold process_job
      rw [if_pos (by simpa using h1)]
      rfl

lemma mem_insertAssoc (tbl : List (String × CompressionJob)) (k : String)
    (v : CompressionJob) : ∀ p ∈ insertAssoc tbl k v, p ∈ tbl ∨ p = (k, v) := by
  induction tbl with
  | nil =>
    intro p hp
    simp [insertAssoc] at hp
    right
    exact hp
  | cons q rest ih =>
    intro p hp
    by_cases h : q.1 = k
    · rw [insertAssoc, if_pos h] at hp
      rcases List.mem_cons.mp hp with heq | hmem
      · right
        exact heq
      · left
        exact List.mem_cons.mpr (Or.inr hmem)
    · rw [insertAssoc, if_neg h] at hp
      rcases List.mem_cons.mp hp with heq | hmem
      · left
        rw [heq]
        exact List.mem_cons_self q rest
      · rcases ih p hmem with h1 | h1
        · left
          exact List.mem_cons.mpr (Or.inr h1)
        · right
          exact h1

lemma mem_updateJob (tbl : List (String × CompressionJob)) (jid : String)
    (f : CompressionJob → CompressionJob) :
    ∀ p ∈ updateJob tbl jid f,
      p ∈ tbl ∨ ∃ j, lookupJob tbl jid = some j ∧ p = (jid, f j) := by
  induction tbl with
  | nil =>
    intro p hp
    simp [updateJob] at hp
  | cons q rest ih =>
    intro p hp
    by_cases h : q.1 = jid
    · rw [updateJob, if_pos h] at hp
      rcases List.mem_cons.mp hp with heq | hmem
      · right
        refine ⟨q.2, ?_, ?_⟩
        · rw [lookupJob_cons, if_pos h]
        · rw [heq, h]
      · left
        exact List.mem_cons.mpr (Or.inr hmem)
    · rw [updateJob, if_neg h] at hp
      rcases List.mem_cons.mp hp with heq | hmem
      · left
        rw [heq]
        exact List.mem_cons_self q rest
      · rcases ih p hmem with h1 | ⟨j, hj1, hj2⟩
        · left
          exact List.mem_cons.mpr (Or.inr h1)
        · right
          refine ⟨j, ?_, hj2⟩
          rw [lookupJob_cons, if_neg h]
          exact hj1

lemma lookupJob_mem (tbl : List (String × CompressionJob)) (jid : String)
    (j : CompressionJob) (h : lookupJob tbl jid = some j) : (jid, j) ∈ tbl := by
  unfold lookupJob at h
  rcases hf : tbl.find? (fun p => p.1 = jid) with _ | p
  · rw [hf] at h
    exact Option.noConfusion h
  · rw [hf] at h
    have hp1 : p.1 = jid := by simpa using List.find?_some hf
    have hp2 : p.2 = j := by simpa using h
    have hmem := List.mem_of_find?_eq_some hf
    rcases p with ⟨a, b⟩
    simp at hp1 hp2
    rw [← hp1, ← hp2]
    exact hmem

/-- A record whose status is not FAILED and which satisfies the invariant has
no error message. -/
lemma emInv_not_failed_none (j : CompressionJob) (hj : emInv j)
    (h : j.status ≠ .failed) : j.error_message = none := by
  rcases hm : j.error_message with _ | m
  · rfl
  · exfalso
    exact h (hj.mp (by rw [hm]; rfl))

/-- Table-level invariant preservation through an in-place record update. -/
lemma updateJob_inv (tbl : List (String × CompressionJob)) (jid : String)
    (f : CompressionJob → CompressionJob)
    (hinvt : ∀ p ∈ tbl, emInv p.2)
    (hf : ∀ j, lookupJob tbl jid = some j → emInv (f j)) :
    ∀ p ∈ updateJob tbl jid f, emInv p.2 := by
  intro p hp
  rcases mem_updateJob tbl jid f p hp with hmem | ⟨j, hj, heq⟩
  · exact hinvt p hmem
  · rw [heq]
    exact hf j hj

lemma workerDispatch_pending (tbl : List (String × CompressionJob)) (jid : String)
    (now : Int) (j : CompressionJob)
    (hl : lookupJob tbl jid = some j) (hp : j.status = .pending) :
    workerDispatch tbl jid now =
      (some { j with status := .running, start_time := some now, updated_at := now },
       updateJob tbl jid
         (fun x => { x with status := .running, start_time := some now,
                            updated_at := now })) := by
  unfold workerDispatch
  rw [hl]
  simp [hp]

lemma workerDispatch_skip (tbl : List (String × CompressionJob)) (jid : String)
    (now : Int) (h : ∀ j, lookupJob tbl jid = some j → j.status ≠ .pending) :
    workerDispatch tbl jid now = (none, tbl) := by
  unfold workerDispatch
  rcases hl : lookupJob tbl jid with _ | j
  · rfl
  · simp [h j hl]

lemma workerDispatch_inv (tbl : List (String × CompressionJob)) (jid : String)
    (now : Int) (hinvt : ∀ p ∈ tbl, emInv p.2) :
    ∀ p ∈ (workerDispatch tbl jid now).2, emInv p.2 := by
  rcases hl : lookupJob tbl jid with _ | j
  · rw [workerDispatch_skip tbl jid now
      (fun x hx => by rw [hl] at hx; exact Option.noConfusion hx)]
    exact hinvt
  · by_cases hp : j.status = .pending
    · rw [workerDispatch_pending tbl jid now j hl hp]
      apply updateJob_inv tbl jid _ hinvt
      intro j2 hj2
      rw [hl] at hj2
      have hje := Option.some.inj hj2
      subst hje
      have hnone : j.error_message = none :=
        emInv_not_failed_none j (hinvt (jid, j) (lookupJob_mem tbl jid j hl))
          (by rw [hp]; exact fun h => JobStatus.noConfusion h)
      simp [emInv, hnone]
    · rw [workerDispatch_skip tbl jid now (by
        intro x hx
        rw [hl] at hx
        have := Option.some.inj hx
        subst this
        exact hp)]
      exact hinvt

lemma workerStep_inv (fs : FileSystem) (exec : Nat → ExecOutcome)
    (tbl : List (String × CompressionJob)) (jid : String) (now : Int)
    (hinvt : ∀ p ∈ tbl, emInv p.2) :
    ∀ p ∈ workerStep fs exec tbl jid now, emInv p.2 := by
  unfold workerStep
  rcases hl : lookupJob tbl jid with _ | j
  · rw [workerDispatch_skip tbl jid now
      (fun x hx => by rw [hl] at hx; exact Option.noConfusion hx)]
    exact hinvt
  · by_cases hp : j.status = .pending
    · rw [workerDispatch_pending tbl jid now j hl hp]
      simp only
      have hnone : j.error_message = none :=
        emInv_not_failed_none j (hinvt (jid, j) (lookupJob_mem tbl jid j hl))
          (by rw [hp]; exact fun h => JobStatus.noConfusion h)
      have htbl2 : ∀ p ∈ updateJob tbl jid
          (fun x => { x with status := JobStatus.running, start_time := some now,
                             updated_at := now }), emInv p.2 := by
        apply updateJob_inv tbl jid _ hinvt
        intro j2 hj2
        rw [hl] at hj2
        have hje := Option.some.inj hj2
        subst hje
        simp [emInv, hnone]
      apply updateJob_inv _ jid _ htbl2
      intro j2 _
      set job2 : CompressionJob :=
        { j with status := JobStatus.running, start_time := some now,
                 updated_at := now } with hjob2
      have hperr := process_job_error fs exec now job2
      cases hok : (process_job fs exec now job2).1
      · have hsome := hperr.2 hok
        simp only [emInv, finalizeJob, hok]
        simpa using hsome
      · have heq := hperr.1 hok
        have : (process_job fs exec now job2).2.1.error_message = none := by
          rw [heq]
          exact hnone
        simp only [emInv, finalizeJob, hok]
        simp [this]
    · rw [workerDispatch_skip tbl jid now (by
        intro x hx
        rw [hl] at hx
        have := Option.some.inj hx
        subst this
        exact hp)]
      exact hinvt

/-- **C8**: starting from records satisfying it, every queue operation —
submitting a fresh record with no error message, cancelling, worker dispatch,
and a full worker step (dispatch, process, finalize) — preserves the
invariant that a record's `error_message` is non-null exactly when its status
is FAILED; in particular COMPLETED and CANCELLED records have no error
message and FAILED records always carry one. -/
theorem error_message_iff_failed (st : QueueState) (now : Int)
    (newJob : CompressionJob) (jid : String) (fs : FileSystem)
    (exec : Nat → ExecOutcome) (tbl : List (String × CompressionJob))
    (hinv : ∀ p ∈ st.jobs, emInv p.2) (hinvt : ∀ p ∈ tbl, emInv p.2)
    (hfresh : newJob.status = .pending ∧ newJob.error_message = none) :
    (∀ p ∈ (add_job st now newJob).2.jobs, emInv p.2)
    ∧ (∀ p ∈ (cancel_job st now jid).2.jobs, emInv p.2)
    ∧ (∀ p ∈ (workerDispatch tbl jid now).2, emInv p.2)
    ∧ (∀ p ∈ workerStep fs exec tbl jid now, emInv p.2) := by
  refine ⟨?_, ?_, workerDispatch_inv tbl jid now hinvt,
    workerStep_inv fs exec tbl jid now hinvt⟩
  · intro p hp2
    unfold add_job at hp2
    by_cases hr : (check_rate_limit st.rate_limit_per_minute now st.request_times).1
    · simp only [hr, if_true] at hp2
      rcases mem_insertAssoc st.jobs newJob.job_id newJob p hp2 with hmem | heq
      · exact hinv p hmem
      · rw [heq]
        simp [emInv, hfresh.1, hfresh.2]
    · simp only [hr, if_false] at hp2
      exact hinv p hp2
  · rcases hl : lookupJob st.jobs jid with _ | j
    · have e : cancel_job st now jid = (false, st) := by
        unfold cancel_job
        rw [hl]
      rw [e]
      exact hinv
    · by_cases hp : j.status = .pending
      · have e : (cancel_job st now jid).2.jobs =
            updateJob st.jobs jid
              (fun x => { x with status := .cancelled, updated_at := now }) := by
          unfold cancel_job
          rw [hl]
          simp [hp]
        rw [e]
        apply updateJob_inv st.jobs jid _ hinv
        intro j2 hj2
        rw [hl] at hj2
        have hje := Option.some.inj hj2
        subst hje
        have hnone : j.error_message = none :=
          emInv_not_failed_none j (hinv (jid, j) (lookupJob_mem st.jobs jid j hl))
            (by rw [hp]; exact fun h => JobStatus.noConfusion h)
        simp [emInv, hnone]
      · have e : cancel_job st now jid = (false, st) := by
          unfold cancel_job
          rw [hl]
          simp [hp]
        rw [e]
        exact hinv

/-- Witness for `error_message_iff_failed`: a one-job table with valid paths
and an always-failing executor. -/
theorem error_message_iff_failed_witness :
    (∀ p ∈ (add_job { emptyState with jobs := [("a", jobLowP)] } 3 jobNorP).2.jobs,
      emInv p.2)
    ∧ (∀ p ∈ (cancel_job { emptyState with jobs := [("a", jobLowP)] } 3 "a").2.jobs,
      emInv p.2)
    ∧ (∀ p ∈ (workerDispatch [("a", jobLowP)] "a" 3).2, emInv p.2)
    ∧ (∀ p ∈ workerStep fsA execFail [("a", jobLowP)] "a" 3, emInv p.2) :=
  error_message_iff_failed { emptyState with jobs := [("a", jobLowP)] } 3 jobNorP
    "a" fsA execFail [("a", jobLowP)]
    (by intro p hp; simp at hp; rw [hp]; simp [emInv, jobLowP])
    (by intro p hp; simp at hp; rw [hp]; simp [emInv, jobLowP])
    ⟨rfl, rfl⟩

/-! ### Double rate-limit accounting of `add_job_rate_limited` -/

lemma pruneWindow_idem_append (now : Int) (times : List Int) :
    pruneWindow now (pruneWindow now times ++ [now]) = pruneWindow now times ++ [now] := by
  apply pruneWindow_eq_self
  intro x hx
  rcases List.mem_append.mp hx with h1 | h1
  · unfold pruneWindow at h1
    simpa using List.of_mem_filter h1
  · simp at h1
    subst h1
    omega

/-- A successful `add_job_rate_limited` call records the call timestamp
twice: once in its own check and once in `add_job`'s check. -/
lemma add_job_rate_limited_two (st : QueueState) (now : Int) (job : CompressionJob)
    (h : (add_job_rate_limited st now job).1.isSome) :
    (add_job_rate_limited st now job).2.request_times
      = pruneWindow now st.request_times ++ [now, now] := by
  unfold add_job_rate_limited at h ⊢
  by_cases h1 : (check_rate_limit st.rate_limit_per_minute now st.request_times).1
  · rw [if_pos h1] at h ⊢
    have hc1 : (check_rate_limit st.rate_limit_per_minute now st.request_times).2 =
        pruneWindow now st.request_times ++ [now] := by
      unfold check_rate_limit at h1 ⊢
      by_cases hc : st.rate_limit_per_minute ≤ (pruneWindow now st.request_times).length
      · rw [if_pos hc] at h1
        exact absurd h1 (by simp)
      · rw [if_neg hc]
    unfold add_job at h ⊢
    simp only [hc1] at h ⊢
    by_cases h2 : (check_rate_limit st.rate_limit_per_minute now
        (pruneWindow now st.request_times ++ [now])).1
    · rw [if_pos h2]
      have hc2 : (check_rate_limit st.rate_limit_per_minute now
          (pruneWindow now st.request_times ++ [now])).2 =
          pruneWindow now st.request_times ++ [now] ++ [now] := by
        unfold check_rate_limit at h2 ⊢
        rw [pruneWindow_idem_append] at h2 ⊢
        by_cases hc : st.rate_limit_per_minute ≤
            (pruneWindow now st.request_times ++ [now]).length
        · rw [if_pos hc] at h2
          exact absurd h2 (by simp)
        · rw [if_neg hc]
      simp only [hc2]
      simp
    · rw [if_neg h2] at h
      exact absurd h (by simp)
  · rw [if_neg h1] at h
    exact absurd h (by simp)

/-- Exhaustive behaviour of one `add_job_rate_limited` call whose recorded
timestamps are all inside the live window (so pruning removes nothing). -/
lemma add_jrl_cases (st : QueueState) (now : Int) (job : CompressionJob) (cap : Nat)
    (hcap : st.rate_limit_per_minute = cap)
    (hw : ∀ x ∈ st.request_times, now - x < 60) :
    (st.request_times.length + 2 ≤ cap →
      (add_job_rate_limited st now job).1.isSome
      ∧ (add_job_rate_limited st now job).2.request_times
          = st.request_times ++ [now, now]
      ∧ (add_job_rate_limited st now job).2.rate_limit_per_minute = cap)
    ∧ (st.request_times.length + 1 = cap →
      (add_job_rate_limited st now job).1 = none
      ∧ (add_job_rate_limited st now job).2.request_times = st.request_times ++ [now]
      ∧ (add_job_rate_limited st now job).2.rate_limit_per_minute = cap)
    ∧ (cap ≤ st.request_times.length →
      (add_job_rate_limited st now job).1 = none
      ∧ (add_job_rate_limited st now job).2.request_times = st.request_times
      ∧ (add_job_rate_limited st now job).2.rate_limit_per_minute = cap) := by
  have hprune : pruneWindow now st.request_times = st.request_times :=
    pruneWindow_eq_self now _ hw
  have hprune2 : pruneWindow now (st.request_times ++ [now])
      = st.request_times ++ [now] := by
    apply pruneWindow_eq_self
    intro x hx
    rcases List.mem_append.mp hx with h1 | h1
    · exact hw x h1
    · simp at h1
      subst h1
      omega
  refine ⟨?_, ?_, ?_⟩
  · intro hle
    have hc1 : check_rate_limit cap now st.request_times =
        (true, st.request_times ++ [now]) := by
      unfold check_rate_limit
      rw [hprune, if_neg (by omega)]
    have hc2 : check_rate_limit cap now (st.request_times ++ [now]) =
        (true, st.request_times ++ [now] ++ [now]) := by
      unfold check_rate_limit
      rw [hprune2, if_neg (by simp; omega)]
    unfold add_job_rate_limited
    rw [hcap, hc1]
    simp only [if_true]
    unfold add_job
    simp only [hc2]
    simp
  · intro heq
    have hc1 : check_rate_limit cap now st.request_times =
        (true, st.request_times ++ [now]) := by
      unfold check_rate_limit
      rw [hprune, if_neg (by omega)]
    have hc2 : check_rate_limit cap now (st.request_times ++ [now]) =
        (false, st.request_times ++ [now]) := by
      unfold check_rate_limit
      rw [hprune2, if_pos (by simp; omega)]
    unfold add_job_rate_limited
    rw [hcap, hc1]
    simp only [if_true]
    unfold add_job
    simp only [hc2]
    simp
  · intro hge
    have hc1 : check_rate_limit cap now st.request_times =
        (false, st.request_times) := by
      unfold check_rate_limit
      rw [hprune, if_pos (by omega)]
    unfold add_job_rate_limited
    rw [hcap, hc1]
    simp

/-- Within one 60-second window, twice the number of successful
`add_job_rate_limited` calls never exceeds the cap (counting from any
in-window starting state). -/
lemma runSubmits_bound (job : CompressionJob) (cap : Nat) (t : Int) :
    ∀ (nows : List Int) (st : QueueState),
      st.rate_limit_per_minute = cap →
      (∀ x ∈ st.request_times, t ≤ x ∧ x < t + 60) →
      (∀ x ∈ nows, t ≤ x ∧ x < t + 60) →
      2 * (runSubmits job st nows).1 + st.request_times.length
        ≤ max st.request_times.length cap := by
  intro nows
  induction nows with
  | nil =>
    intro st _ _ _
    simp [runSubmits]
  | cons n rest ih =>
    intro st hcap hw hnows
    have hn := hnows n (by simp)
    have hw60 : ∀ x ∈ st.request_times, n - x < 60 := by
      intro x hx
      have := hw x hx
      omega
    have hc := add_jrl_cases st n job cap hcap hw60
    have hwapp : ∀ x ∈ st.request_times ++ [n], t ≤ x ∧ x < t + 60 := by
      intro x hx
      rcases List.mem_append.mp hx with h1 | h1
      · exact hw x h1
      · simp at h1
        subst h1
        exact hn
    have hrest : ∀ x ∈ rest, t ≤ x ∧ x < t + 60 := fun x hx => hnows x (by simp [hx])
    rcases Nat.lt_or_ge (st.request_times.length + 1) cap with hlt | hge
    · have h1 := hc.1 (by omega)
      have hwapp2 : ∀ x ∈ (add_job_rate_limited st n job).2.request_times,
          t ≤ x ∧ x < t + 60 := by
        rw [h1.2.1]
        intro x hx
        rcases List.mem_append.mp hx with h2 | h2
        · exact hw x h2
        · simp at h2
          subst h2
          exact hn
      have hib := ih (add_job_rate_limited st n job).2 h1.2.2 hwapp2 hrest
      rw [h1.2.1] at hib
      simp only [List.length_append, List.length_cons, List.length_nil] at hib
      have hmax1 : max (st.request_times.length + 2) cap = cap :=
        Nat.max_eq_right (by omega)
      rw [hmax1] at hib
      have hmax2 : cap ≤ max st.request_times.length cap := Nat.le_max_right _ _
      rw [runSubmits]
      simp only [h1.1, if_true]
      omega
    · rcases Nat.eq_or_lt_of_le hge with heq | hgt
      · have h2 := hc.2.1 heq.symm
        have hwapp2 : ∀ x ∈ (add_job_rate_limited st n job).2.request_times,
            t ≤ x ∧ x < t + 60 := by
          rw [h2.2.1]
          exact hwapp
        have hib := ih (add_job_rate_limited st n job).2 h2.2.2 hwapp2 hrest
        rw [h2.2.1] at hib
        simp only [List.length_append, List.length_cons, List.length_nil] at hib
        have hmax1 : max (st.request_times.length + 1) cap = cap :=
          Nat.max_eq_right (by omega)
        rw [hmax1] at hib
        have hmax2 : cap ≤ max st.request_times.length cap := Nat.le_max_right _ _
        rw [runSubmits]
        simp only [h2.1]
        simp only [Option.isSome_none, Bool.false_eq_true, if_false]
        omega
      · have h3 := hc.2.2 (by omega)
        have hwapp2 : ∀ x ∈ (add_job_rate_limited st n job).2.request_times,
            t ≤ x ∧ x < t + 60 := by
          rw [h3.2.1]
          exact hw
        have hib := ih (add_job_rate_limited st n job).2 h3.2.2 hwapp2 hrest
        rw [h3.2.1] at hib
        rw [runSubmits]
        simp only [h3.1]
        simp only [Option.isSome_none, Bool.false_eq_true, if_false]
        omega

/-- **C10**: a successful `add_job_rate_limited` call appends two timestamps
to the rate-limiter window — one from its own check and one from the check
inside the delegated `add_job` — and consequently, with a cap of `cap`, at
most `⌈cap/2⌉` calls to `add_job_rate_limited` can succeed within one
60-second window. -/
theorem add_job_rate_limited_double_count (st : QueueState) (now : Int)
    (job : CompressionJob) (cap : Nat) (t : Int) (nows : List Int)
    (st0 : QueueState)
    (h : (add_job_rate_limited st now job).1.isSome)
    (hcap : st0.rate_limit_per_minute = cap) (hempty : st0.request_times = [])
    (hwin : ∀ x ∈ nows, t ≤ x ∧ x < t + 60) :
    (add_job_rate_limited st now job).2.request_times
      = pruneWindow now st.request_times ++ [now, now]
    ∧ 2 * (runSubmits job st0 nows).1 ≤ cap
    ∧ (runSubmits job st0 nows).1 ≤ (cap + 1) / 2 := by
  have hb := runSubmits_bound job cap t nows st0 hcap
    (by rw [hempty]; simp) hwin
  rw [hempty] at hb
  simp at hb
  exact ⟨add_job_rate_limited_two st now job h, by omega, by omega⟩

/-- Witness for `add_job_rate_limited_double_count`: one successful call on
the empty state records the timestamp twice, and with the default cap of 60
no more than 30 calls can succeed in a window. -/
theorem add_job_rate_limited_double_count_witness :
    (add_job_rate_limited emptyState 5 jobNorP).2.request_times
      = pruneWindow 5 emptyState.request_times ++ [5, 5]
    ∧ 2 * (runSubmits jobNorP emptyState [0, 1, 2]).1 ≤ 60
    ∧ (runSubmits jobNorP emptyState [0, 1, 2]).1 ≤ (60 + 1) / 2 :=
  add_job_rate_limited_double_count emptyState 5 jobNorP 60 0 [0, 1, 2] emptyState
    (by decide) rfl rfl (by decide)

/-! ### Snapshot queries return live references -/

/-- **C7** counterexample: `get_all_jobs` returns a new list whose elements
are references to the live record objects, not copies — mutating the record
object reached through the returned list changes the record stored in the
job table, contradicting the claim. -/
theorem get_all_jobs_live_counterexample :
    get_all_jobs [("a", 0)] = [0]
    ∧ derefJob [jobLowP] [("a", 0)] "a" = some jobLowP
    ∧ derefJob (writeRef [jobLowP] 0 jobLowMut) [("a", 0)] "a" = some jobLowMut
    ∧ jobLowMut ≠ jobLowP :=
  ⟨rfl, by decide, by decide, by decide⟩

/-- **C7** amended: the snapshot queries build new lists (so the returned
list itself is fixed at call time), but their elements are live references to
the stored record objects: mutating the record behind a reference returned by
`get_all_jobs` is visible through the job table (and conversely), and the
pending/running queries return a subset of the same references. -/
theorem get_all_jobs_live_references (heap : List CompressionJob)
    (tbl : List (String × Ref)) (jid : String) (r : Ref) (j2 : CompressionJob)
    (hfind : tbl.find? (fun p => p.1 = jid) = some (jid, r))
    (hr : r < heap.length) :
    r ∈ get_all_jobs tbl
    ∧ derefJob (writeRef heap r j2) tbl jid = some j2
    ∧ (∀ x ∈ get_pending_jobs heap tbl, x ∈ get_all_jobs tbl)
    ∧ (∀ x ∈ get_running_jobs heap tbl, x ∈ get_all_jobs tbl) := by
  refine ⟨?_, ?_, ?_, ?_⟩
  · exact List.mem_map_of_mem _ (List.mem_of_find?_eq_some hfind)
  · unfold derefJob
    rw [hfind]
    exact List.getElem?_set_eq_of_lt j2 hr
  · intro x hx
    exact List.mem_of_mem_filter hx
  · intro x hx
    exact List.mem_of_mem_filter hx

/-- Witness for `get_all_jobs_live_references` on a one-record heap. -/
theorem get_all_jobs_live_references_witness :
    (0 : Ref) ∈ get_all_jobs [("a", 0)]
    ∧ derefJob (writeRef [jobLowP] 0 jobLowMut) [("a", 0)] "a" = some jobLowMut
    ∧ (∀ x ∈ get_pending_jobs [jobLowP] [("a", 0)], x ∈ get_all_jobs [("a", 0)])
    ∧ (∀ x ∈ get_running_jobs [jobLowP] [("a", 0)], x ∈ get_all_jobs [("a", 0)]) :=
  get_all_jobs_live_references [jobLowP] [("a", 0)] "a" 0 jobLowMut
    (by decide) (by decide)

end PureSound
